import Mathlib

/-!
Verification of the cookbook registry and recipe resolver
(src/backend/ts_template/devdonalds.ts).

The embedding models the JSON request bodies as a dynamic value type
`JSVal` (what `express.json()` can deliver), the stored cookbook as a
`List Entry` mirroring `inMemoryCookbook`, the `/entry` handler as
`postEntry`, the `/summary` handler as `getSummaryE` / `summaryEndpoint`,
and the recursive `gatherRecipeData` as the fuel-indexed `gatherFuel`
(fuel bounds the recursion depth; the fuel-independence theorems show the
semantics stabilizes on acyclic requirement graphs).
-/

/-- A runtime JavaScript value as delivered by the JSON body parser.
`undefinedVal` is the result of reading an absent object field. -/
inductive JSVal where
  | undefinedVal : JSVal
  | nul : JSVal
  | bool : Bool → JSVal
  | num : Int → JSVal
  | str : String → JSVal
  | arr : List JSVal → JSVal
  | obj : List (String × JSVal) → JSVal

/-- Property read `v.k`: a field of an object, `undefined` otherwise
(primitive property access yields `undefined`; the handlers never read a
field off `null`, that case is modelled separately as a thrown TypeError). -/
def getField : JSVal → String → JSVal
  | .obj fields, k =>
    match fields.find? (fun kv => kv.1 == k) with
    | some kv => kv.2
    | none => .undefinedVal
  | _, _ => .undefinedVal

/-- JavaScript strict equality of a value against a string literal. -/
def jsStrEq (v : JSVal) (s : String) : Bool :=
  match v with
  | .str t => t == s
  | _ => false

/-- `typeof v === "string"`. -/
def typeofString (v : JSVal) : Bool :=
  match v with
  | .str _ => true
  | _ => false

/-- JavaScript truthiness. -/
def truthy : JSVal → Bool
  | .undefinedVal => false
  | .nul => false
  | .bool b => b
  | .num n => n != 0
  | .str s => !(s == "")
  | .arr _ => true
  | .obj _ => true

/-- Reading `.name` off this value throws a TypeError
(`null`/`undefined` array elements at line 122 of the source). -/
def nullish : JSVal → Bool
  | .nul => true
  | .undefinedVal => true
  | _ => false

/-- `new Set` membership equality (SameValueZero) restricted to parsed-JSON
values: primitives compare structurally; distinct parsed objects and arrays
are always distinct references, hence never equal. -/
def jsSetEq : JSVal → JSVal → Bool
  | .undefinedVal, .undefinedVal => true
  | .nul, .nul => true
  | .bool a, .bool b => a == b
  | .num a, .num b => a == b
  | .str a, .str b => a == b
  | _, _ => false

/-- `new Set(names).size !== names.length`: some element repeats. -/
def hasDup : List JSVal → Bool
  | [] => false
  | x :: rest => rest.any (jsSetEq x) || hasDup rest

/-- A stored cookbook entry, as pushed by the `/entry` handler: the `type`
tag is the stored string, `cookTime` is meaningful for ingredients and
`requiredItems` for recipes. -/
structure Entry where
  name : String
  type : String
  cookTime : Int
  requiredItems : List (String × Int)
deriving DecidableEq, Repr

/-- The per-item structural validation at lines 128-137 of the source:
`!item || typeof item.name !== "string" || typeof item.quantity !== "number"
|| item.quantity < 1` rejects. -/
def itemValid (i : JSVal) : Bool :=
  truthy i && typeofString (getField i "name") &&
    (match getField i "quantity" with
     | .num q => decide (1 ≤ q)
     | _ => false)

/-- Extraction of a validated requirement line into its stored form
(the defaults are unreachable once `itemValid` holds). -/
def extractItem (i : JSVal) : String × Int :=
  (match getField i "name" with
   | .str n => n
   | _ => "",
   match getField i "quantity" with
   | .num q => q
   | _ => 0)

/-- Outcome of the `/entry` handler: HTTP 200, HTTP 400, or an exception
escaping the handler (which the framework reports as HTTP 500). -/
inductive EntryOutcome where
  | success : EntryOutcome
  | badRequest : EntryOutcome
  | thrown : EntryOutcome
deriving DecidableEq, Repr

/-- The `/entry` handler (lines 82-150 of the source), returning the
outcome together with the cookbook state after the request. -/
def postEntry (cb : List Entry) (body : JSVal) : EntryOutcome × List Entry :=
  if !(jsStrEq (getField body "type") "recipe" || jsStrEq (getField body "type") "ingredient") then
    (.badRequest, cb)
  else
    match getField body "name" with
    | .str s =>
      if s == "" then (.badRequest, cb)
      else if cb.any (fun e => e.name == s) then (.badRequest, cb)
      else if jsStrEq (getField body "type") "ingredient" then
        match getField body "cookTime" with
        | .num c =>
          if c < 0 then (.badRequest, cb)
          else (.success, cb ++ [⟨s, "ingredient", c, []⟩])
        | _ => (.badRequest, cb)
      else
        match getField body "requiredItems" with
        | .arr items =>
          if items.any nullish then (.thrown, cb)
          else if hasDup (items.map (fun i => getField i "name")) then (.badRequest, cb)
          else if items.all itemValid then
            (.success, cb ++ [⟨s, "recipe", 0, items.map extractItem⟩])
          else (.badRequest, cb)
        | _ => (.badRequest, cb)
    | _ => (.badRequest, cb)

/-- Cookbook states reachable from the empty cookbook through the
`/entry` handler. -/
inductive Reachable : List Entry → Prop
  | nil : Reachable []
  | step {cb cb' : List Entry} {body : JSVal} :
      Reachable cb → postEntry cb body = (.success, cb') → Reachable cb'

/-- Errors thrown by `gatherRecipeData` (lines 212 and 229 of the source),
plus `fuelOut`, the modelling artifact for exceeding the allowed recursion
depth. -/
inductive GErr where
  | missing : String → GErr
  | invalidType : String → String → GErr
  | fuelOut : GErr
deriving DecidableEq, Repr

/-- `aggregated[name] = (aggregated[name] || 0) + neededQty` on a
JavaScript object kept as an association list in insertion order. -/
def bumpAgg : List (String × Int) → String → Int → List (String × Int)
  | [], n, q => [(n, q)]
  | (m, v) :: rest, n, q =>
    if m == n then (m, v + q) :: rest else (m, v) :: bumpAgg rest n q

/-- Value of a key in the aggregation map, 0 when absent. -/
def lookAgg : List (String × Int) → String → Int
  | [], _ => 0
  | (m, v) :: rest, i => if m == i then v else lookAgg rest i

/-- One level of `gatherRecipeData` (lines 198-234 of the source): the loop
over `rec.requiredItems`, with `recur` standing for the recursive call on a
referenced sub-recipe. Returns the total cook time of this level together
with the updated aggregation map, or the thrown error. -/
def gatherStep (cb : List Entry)
    (recur : List (String × Int) → Int → List (String × Int) → Except GErr (Int × List (String × Int))) :
    List (String × Int) → Int → List (String × Int) → Except GErr (Int × List (String × Int))
  | [], _, agg => .ok (0, agg)
  | (n, q) :: rest, mult, agg =>
    let needed := q * mult
    match cb.find? (fun e => e.name == n) with
    | none => .error (.missing n)
    | some e =>
      if e.type == "ingredient" then
        match gatherStep cb recur rest mult (bumpAgg agg e.name needed) with
        | .ok (t, agg') => .ok (e.cookTime * needed + t, agg')
        | .error er => .error er
      else if e.type == "recipe" then
        match recur e.requiredItems needed agg with
        | .ok (tSub, agg1) =>
          match gatherStep cb recur rest mult agg1 with
          | .ok (t, agg') => .ok (tSub + t, agg')
          | .error er => .error er
        | .error er => .error er
      else .error (.invalidType e.type e.name)

/-- `gatherRecipeData` at recursion depth at most `fuel`: each descent into
a sub-recipe consumes one unit of fuel. -/
def gatherFuel (cb : List Entry) : Nat →
    List (String × Int) → Int → List (String × Int) → Except GErr (Int × List (String × Int))
  | 0 => fun _ _ _ => .error .fuelOut
  | fuel + 1 => gatherStep cb (gatherFuel cb fuel)

/-- Failure cases of the `/summary` handler, by the branch of the source
that produces them: the query-parameter check (line 158), the
not-found-or-not-recipe check (line 166), and the caught
`gatherRecipeData` exception (line 184). -/
inductive SummaryErr where
  | invalidQuery : SummaryErr
  | notFoundOrNotRecipe : SummaryErr
  | gather : GErr → SummaryErr
deriving DecidableEq, Repr

/-- The `/summary` handler (lines 154-188 of the source), keeping the
failure branch that was taken. The success payload is the response body
`(name, cookTime, ingredients)`. -/
def getSummaryE (cb : List Entry) (fuel : Nat) (name : String) :
    Except SummaryErr (String × Int × List (String × Int)) :=
  if name == "" then .error .invalidQuery
  else
    match cb.find? (fun e => e.name == name) with
    | none => .error .notFoundOrNotRecipe
    | some e =>
      if e.type == "recipe" then
        match gatherFuel cb fuel e.requiredItems 1 [] with
        | .ok (t, agg) => .ok (e.name, t, agg)
        | .error g => .error (.gather g)
      else .error .notFoundOrNotRecipe

/-- What the caller of `/summary` observes: a JSON body on success, a bare
HTTP 400 on every failure. -/
inductive SummaryHttp where
  | jsonOk : String × Int × List (String × Int) → SummaryHttp
  | badRequest : SummaryHttp
deriving DecidableEq, Repr

/-- The observable response of the `/summary` handler. -/
def summaryEndpoint (cb : List Entry) (fuel : Nat) (name : String) : SummaryHttp :=
  match getSummaryE cb fuel name with
  | .ok r => .jsonOk r
  | .error _ => .badRequest

/-- The `/summary` handler as a state transformer: it reads the cookbook
and never assigns it (the handler contains no write to
`inMemoryCookbook`). -/
def summaryStep (cb : List Entry) (fuel : Nat) (name : String) :
    SummaryHttp × List Entry :=
  (summaryEndpoint cb fuel name, cb)

/-- The worked example of the specification: Flour (cookTime 2),
Dough = 2 Flour, Bread = 1 Dough + 1 Flour. -/
def breadCb : List Entry :=
  [⟨"Flour", "ingredient", 2, []⟩,
   ⟨"Dough", "recipe", 0, [("Flour", 2)]⟩,
   ⟨"Bread", "recipe", 0, [("Dough", 1), ("Flour", 1)]⟩]

/-- A topological rank for `breadCb`. -/
def breadRank (n : String) : Nat :=
  if n == "Bread" then 2 else if n == "Dough" then 1 else 0

/-- A cookbook whose only recipe requires a name absent from it. -/
def cb9 : List Entry :=
  [⟨"Pie", "recipe", 0, [("Spice", 1)]⟩]

/-- The JavaScript whitespace class used by `trim` and the regex class
`\s`: ASCII whitespace, NBSP, the Unicode space separators, line and
paragraph separators and the BOM. -/
def jsWs (c : Char) : Bool :=
  c == ' ' || c == '\t' || c == '\n' || c == '\r' ||
    c == (Char.ofNat 0x0b) || c == (Char.ofNat 0x0c) ||
    c == (Char.ofNat 0xa0) || c == (Char.ofNat 0x1680) ||
    (0x2000 ≤ c.toNat && c.toNat ≤ 0x200a) ||
    c == (Char.ofNat 0x2028) || c == (Char.ofNat 0x2029) ||
    c == (Char.ofNat 0x202f) || c == (Char.ofNat 0x205f) ||
    c == (Char.ofNat 0x3000) || c == (Char.ofNat 0xfeff)

/-- A letter of the regex class `A-Za-z`. -/
def asciiLetter (c : Char) : Bool :=
  ('A' ≤ c && c ≤ 'Z') || ('a' ≤ c && c ≤ 'z')

/-- `String.prototype.trim`: strip leading and trailing whitespace. -/
def jsTrim (l : List Char) : List Char :=
  ((l.dropWhile jsWs).reverse.dropWhile jsWs).reverse

/-- `.replace(/[-_]/g, ' ')` (line 53 of the source). -/
def dashToSpace (l : List Char) : List Char :=
  l.map (fun c => if c == '-' || c == '_' then ' ' else c)

/-- `.replace(/[^A-Za-z\s]/g, '')` (line 56 of the source). -/
def keepLettersWs (l : List Char) : List Char :=
  l.filter (fun c => asciiLetter c || jsWs c)

/-- `.replace(/\s+/g, ' ')` (line 59 of the source): each maximal run of
whitespace becomes one space; `prevWs` records whether the previous
character belonged to the current run. -/
def collapseWsAux : Bool → List Char → List Char
  | _, [] => []
  | prevWs, c :: rest =>
    if jsWs c then
      if prevWs then collapseWsAux true rest
      else ' ' :: collapseWsAux true rest
    else c :: collapseWsAux false rest

def collapseWs (l : List Char) : List Char :=
  collapseWsAux false l

/-- The normalization pipeline up to (and including) the collapse step:
what the source calls `result` at line 59. -/
def normCore (l : List Char) : List Char :=
  collapseWs (jsTrim (keepLettersWs (dashToSpace l)))

/-- `.split(' ')` (line 68 of the source): split on single spaces,
keeping empty pieces. -/
def splitSp : List Char → List (List Char)
  | [] => [[]]
  | c :: rest =>
    if c = ' ' then [] :: splitSp rest
    else
      match splitSp rest with
      | [] => [[c]]
      | w :: ws => (c :: w) :: ws

/-- `word.charAt(0).toUpperCase() + word.slice(1).toLowerCase()`
(lines 70-72 of the source); the characters reaching this point are all
ASCII letters, for which `Char.toUpper`/`Char.toLower` agree with the
JavaScript conversions. -/
def capWord : List Char → List Char
  | [] => []
  | c :: rest => c.toUpper :: rest.map Char.toLower

/-- `.join(' ')` (line 74 of the source). -/
def joinSp : List (List Char) → List Char
  | [] => []
  | [w] => w
  | w :: ws => w ++ ' ' :: joinSp ws

/-- `parse_handwriting` (lines 48-78 of the source). -/
def parse_handwriting (recipeName : String) : Option String :=
  if jsTrim recipeName.toList == [] then none
  else
    let result := normCore recipeName.toList
    if result == [] then none
    else
      let titled := joinSp ((splitSp result).map capWord)
      if titled.length > 0 then some titled.asString else none

/-- Specification-side cook time, from the words of the spec: the sum over
the requirement lines of `cookTime * quantity * multiplier` for ingredient
lines and of the recursively computed cook time at multiplier
`quantity * multiplier` for sub-recipe lines. Lines the code would abort
on contribute 0; the function is only compared with the code on successful
runs. -/
def specCookStep (cb : List Entry) (recur : List (String × Int) → Int → Int) :
    List (String × Int) → Int → Int
  | [], _ => 0
  | (n, q) :: rest, mult =>
    (match cb.find? (fun e => e.name == n) with
     | none => 0
     | some e =>
       if e.type == "ingredient" then e.cookTime * (q * mult)
       else if e.type == "recipe" then recur e.requiredItems (q * mult)
       else 0) + specCookStep cb recur rest mult

def specCookFuel (cb : List Entry) : Nat → List (String × Int) → Int → Int
  | 0 => fun _ _ => 0
  | fuel + 1 => specCookStep cb (specCookFuel cb fuel)

/-- Specification-side quantity of one base ingredient `i`: the sum, over
every path through the requirement graph that reaches `i`, of the product
of the quantities along the path times the initial multiplier. -/
def pathQtyStep (cb : List Entry) (recur : List (String × Int) → Int → String → Int) :
    List (String × Int) → Int → String → Int
  | [], _, _ => 0
  | (n, q) :: rest, mult, i =>
    (match cb.find? (fun e => e.name == n) with
     | none => 0
     | some e =>
       if e.type == "ingredient" then (if e.name == i then q * mult else 0)
       else if e.type == "recipe" then recur e.requiredItems (q * mult) i
       else 0) + pathQtyStep cb recur rest mult i

def pathQtyFuel (cb : List Entry) : Nat → List (String × Int) → Int → String → Int
  | 0 => fun _ _ _ => 0
  | fuel + 1 => pathQtyStep cb (pathQtyFuel cb fuel)

/-- Every stored entity carries one of the two recognized type tags. -/
def WellTyped (cb : List Entry) : Prop :=
  ∀ e ∈ cb, e.type = "ingredient" ∨ e.type = "recipe"

/-- `rank` witnesses acyclicity of the requirement graph: every edge of
the graph (a recipe found by name requiring another name that resolves to
a recipe) strictly decreases the rank. -/
def AcyclicRank (cb : List Entry) (rank : String → Nat) : Prop :=
  ∀ n e, cb.find? (fun x => x.name == n) = some e → e.type = "recipe" →
    ∀ p ∈ e.requiredItems, ∀ e', cb.find? (fun x => x.name == p.1) = some e' →
      e'.type = "recipe" → rank p.1 < rank n

/-- The requirement lines `items` directly or transitively require a name
absent from the cookbook. -/
inductive RequiresAbsent (cb : List Entry) : List (String × Int) → Prop where
  | here {items : List (String × Int)} {n : String} {q : Int} :
      (n, q) ∈ items → cb.find? (fun e => e.name == n) = none →
      RequiresAbsent cb items
  | there {items : List (String × Int)} {n : String} {q : Int} {e : Entry} :
      (n, q) ∈ items → cb.find? (fun x => x.name == n) = some e →
      e.type = "recipe" → RequiresAbsent cb e.requiredItems →
      RequiresAbsent cb items

/-- A strict upper bound on the ranks of the names referenced by `items`. -/
def maxRankItems (rank : String → Nat) (items : List (String × Int)) : Nat :=
  items.foldr (fun p acc => max (rank p.1 + 1) acc) 0

theorem rank_lt_maxRankItems (rank : String → Nat) :
    ∀ items : List (String × Int), ∀ p ∈ items, rank p.1 < maxRankItems rank items := by
  intro items
  induction items with
  | nil => intro p hp; cases hp
  | cons hd tl ih =>
    intro p hp
    rcases List.mem_cons.1 hp with rfl | hp
    · simp only [maxRankItems, List.foldr_cons]
      omega
    · have := ih p hp
      simp only [maxRankItems, List.foldr_cons] at *
      omega

theorem lookAgg_bumpAgg (n : String) (q : Int) (i : String) :
    ∀ agg : List (String × Int),
      lookAgg (bumpAgg agg n q) i = lookAgg agg i + (if n == i then q else 0) := by
  intro agg
  induction agg with
  | nil =>
    by_cases h : n = i <;> simp [bumpAgg, lookAgg, h]
  | cons kv rest ih =>
    obtain ⟨m, v⟩ := kv
    by_cases h1 : m = n
    · subst h1
      by_cases h2 : m = i <;> simp [bumpAgg, lookAgg, h2]
    · by_cases h2 : m = i
      · subst h2
        have hni : ¬ n = m := fun h => h1 h.symm
        simp [bumpAgg, lookAgg, h1, hni]
      · simp [bumpAgg, lookAgg, h1, h2, ih]

/-- Replacing the recursive call by one that agrees wherever the original
does not run out of fuel leaves any fuel-sufficient run unchanged. -/
theorem gatherStep_congr (cb : List Entry)
    (r r' : List (String × Int) → Int → List (String × Int) → Except GErr (Int × List (String × Int)))
    (hr : ∀ its m a, r its m a ≠ .error .fuelOut → r' its m a = r its m a) :
    ∀ items mult agg, gatherStep cb r items mult agg ≠ .error .fuelOut →
      gatherStep cb r' items mult agg = gatherStep cb r items mult agg := by
  intro items
  induction items with
  | nil => intro mult agg _; rfl
  | cons p rest ih =>
    obtain ⟨n, q⟩ := p
    intro mult agg hne
    simp only [gatherStep] at hne ⊢
    cases hfind : cb.find? (fun e => e.name == n) with
    | none => simp [hfind]
    | some e =>
      simp only [hfind] at hne ⊢
      cases hing : e.type == "ingredient" with
      | true =>
        simp only [hing, if_true] at hne ⊢
        have hrest : gatherStep cb r rest mult (bumpAgg agg e.name (q * mult)) ≠ .error .fuelOut := by
          intro hEq; rw [hEq] at hne; exact hne rfl
        rw [ih mult (bumpAgg agg e.name (q * mult)) hrest]
      | false =>
        simp only [hing, Bool.false_eq_true, if_false] at hne ⊢
        cases hrec : e.type == "recipe" with
        | false =>
          simp only [hrec, Bool.false_eq_true, if_false] at hne ⊢
        | true =>
          simp only [hrec, if_true] at hne ⊢
          have hsub : r e.requiredItems (q * mult) agg ≠ .error .fuelOut := by
            intro hEq; rw [hEq] at hne; exact hne rfl
          rw [hr _ _ _ hsub]
          cases hsubr : r e.requiredItems (q * mult) agg with
          | error er => simp [hsubr]
          | ok res =>
            obtain ⟨tSub, agg1⟩ := res
            simp only [hsubr] at hne ⊢
            have hcont : gatherStep cb r rest mult agg1 ≠ .error .fuelOut := by
              intro hEq; rw [hEq] at hne; exact hne rfl
            rw [ih mult agg1 hcont]

/-- Once a run completes without exhausting the fuel, adding fuel does not
change its result: the fuel semantics of `gatherRecipeData` is stable. -/
theorem gatherFuel_mono (cb : List Entry) :
    ∀ fuel fuel' items mult agg, fuel ≤ fuel' →
      gatherFuel cb fuel items mult agg ≠ .error .fuelOut →
      gatherFuel cb fuel' items mult agg = gatherFuel cb fuel items mult agg := by
  intro fuel
  induction fuel with
  | zero => intro fuel' items mult agg _ hne; exact absurd rfl hne
  | succ f ih =>
    intro fuel' items mult agg hle hne
    obtain ⟨f', rfl⟩ : ∃ f', fuel' = f' + 1 := ⟨fuel' - 1, by omega⟩
    exact gatherStep_congr cb (gatherFuel cb f) (gatherFuel cb f')
      (fun its m a h => ih f' its m a (by omega) h) items mult agg hne

/-- If every requirement line of `items` that resolves to a recipe descends
into a run that cannot exhaust its fuel, the loop itself cannot. -/
theorem gatherStep_ne_fuelOut (cb : List Entry)
    (r : List (String × Int) → Int → List (String × Int) → Except GErr (Int × List (String × Int))) :
    ∀ items mult agg,
      (∀ n q e, (n, q) ∈ items → cb.find? (fun x => x.name == n) = some e →
        e.type = "recipe" → ∀ m a, r e.requiredItems m a ≠ .error .fuelOut) →
      gatherStep cb r items mult agg ≠ .error .fuelOut := by
  intro items
  induction items with
  | nil => intro mult agg _; simp [gatherStep]
  | cons p rest ih =>
    obtain ⟨n, q⟩ := p
    intro mult agg hb
    have hbrest : ∀ n' q' e', (n', q') ∈ rest → cb.find? (fun x => x.name == n') = some e' →
        e'.type = "recipe" → ∀ m a, r e'.requiredItems m a ≠ .error .fuelOut :=
      fun n' q' e' hm => hb n' q' e' (List.mem_cons_of_mem _ hm)
    simp only [gatherStep]
    cases hfind : cb.find? (fun e => e.name == n) with
    | none => simp
    | some e =>
      cases hing : e.type == "ingredient" with
      | true =>
        simp only [hing, if_true]
        cases hres : gatherStep cb r rest mult (bumpAgg agg e.name (q * mult)) with
        | ok res => obtain ⟨t, a⟩ := res; simp
        | error er =>
          have h2 := ih mult (bumpAgg agg e.name (q * mult)) hbrest
          rw [hres] at h2
          simpa using h2
      | false =>
        simp only [hing, Bool.false_eq_true, if_false]
        cases hrec : e.type == "recipe" with
        | false => simp [hrec]
        | true =>
          simp only [hrec, if_true]
          have hsub : ∀ m a, r e.requiredItems m a ≠ .error .fuelOut :=
            hb n q e (List.mem_cons_self _ _) hfind (beq_iff_eq.1 hrec)
          cases hsubr : r e.requiredItems (q * mult) agg with
          | error er =>
            have h2 := hsub (q * mult) agg
            rw [hsubr] at h2
            simpa using h2
          | ok res =>
            obtain ⟨tSub, agg1⟩ := res
            dsimp only
            cases hres : gatherStep cb r rest mult agg1 with
            | ok res2 => obtain ⟨t, a⟩ := res2; simp
            | error er =>
              have h2 := ih mult agg1 hbrest
              rw [hres] at h2
              simpa using h2

/-- On a requirement graph with a rank witness of acyclicity, any fuel
strictly above the ranks referenced by `items` cannot be exhausted. -/
theorem gatherFuel_ne_fuelOut (cb : List Entry) (rank : String → Nat)
    (hacy : AcyclicRank cb rank) :
    ∀ k fuel items mult agg, k + 1 ≤ fuel →
      (∀ p ∈ items, ∀ e, cb.find? (fun x => x.name == p.1) = some e →
        e.type = "recipe" → rank p.1 < k) →
      gatherFuel cb fuel items mult agg ≠ .error .fuelOut := by
  intro k
  induction k with
  | zero =>
    intro fuel items mult agg hle hb
    obtain ⟨f, rfl⟩ : ∃ f, fuel = f + 1 := ⟨fuel - 1, by omega⟩
    show gatherStep cb (gatherFuel cb f) items mult agg ≠ Except.error GErr.fuelOut
    apply gatherStep_ne_fuelOut
    intro n q e hm hfind ht m a
    exact absurd (hb (n, q) hm e hfind ht) (Nat.not_lt_zero _)
  | succ k ih =>
    intro fuel items mult agg hle hb
    obtain ⟨f, rfl⟩ : ∃ f, fuel = f + 1 := ⟨fuel - 1, by omega⟩
    show gatherStep cb (gatherFuel cb f) items mult agg ≠ Except.error GErr.fuelOut
    apply gatherStep_ne_fuelOut
    intro n q e hm hfind ht m a
    have hn : rank n < k + 1 := hb (n, q) hm e hfind ht
    apply ih f e.requiredItems m a (by omega)
    intro p hp e' hfind' ht'
    have := hacy n e hfind ht p hp e' hfind' ht'
    omega

/-- A well-typed cookbook never produces the unknown-variant error. -/
theorem gatherStep_ne_invalid (cb : List Entry) (hw : WellTyped cb)
    (r : List (String × Int) → Int → List (String × Int) → Except GErr (Int × List (String × Int)))
    (hr : ∀ its m a t nm, r its m a ≠ .error (.invalidType t nm)) :
    ∀ items mult agg t nm, gatherStep cb r items mult agg ≠ .error (.invalidType t nm) := by
  intro items
  induction items with
  | nil => intro mult agg t nm; simp [gatherStep]
  | cons p rest ih =>
    obtain ⟨n, q⟩ := p
    intro mult agg t nm
    simp only [gatherStep]
    cases hfind : cb.find? (fun e => e.name == n) with
    | none => simp
    | some e =>
      have hmem := List.mem_of_find?_eq_some hfind
      cases hing : e.type == "ingredient" with
      | true =>
        simp only [hing, if_true]
        cases hres : gatherStep cb r rest mult (bumpAgg agg e.name (q * mult)) with
        | ok res => obtain ⟨t', a⟩ := res; simp
        | error er =>
          have h2 := ih mult (bumpAgg agg e.name (q * mult)) t nm
          rw [hres] at h2
          simpa using h2
      | false =>
        cases hrec : e.type == "recipe" with
        | false =>
          rcases hw e hmem with h | h
          · rw [h] at hing; simp at hing
          · rw [h] at hrec; simp at hrec
        | true =>
          simp only [hing, Bool.false_eq_true, if_false, hrec, if_true]
          cases hsubr : r e.requiredItems (q * mult) agg with
          | error er =>
            have h2 := hr e.requiredItems (q * mult) agg t nm
            rw [hsubr] at h2
            simpa using h2
          | ok res =>
            obtain ⟨tSub, agg1⟩ := res
            dsimp only
            cases hres : gatherStep cb r rest mult agg1 with
            | ok res2 => obtain ⟨t', a⟩ := res2; simp
            | error er =>
              have h2 := ih mult agg1 t nm
              rw [hres] at h2
              simpa using h2

theorem gatherFuel_ne_invalid (cb : List Entry) (hw : WellTyped cb) :
    ∀ fuel items mult agg t nm,
      gatherFuel cb fuel items mult agg ≠ .error (.invalidType t nm) := by
  intro fuel
  induction fuel with
  | zero => intro items mult agg t nm; simp [gatherFuel]
  | succ f ih =>
    intro items mult agg t nm
    show gatherStep cb (gatherFuel cb f) items mult agg ≠ Except.error (GErr.invalidType t nm)
    exact gatherStep_ne_invalid cb hw (gatherFuel cb f)
      (fun its m a t' nm' => ih its m a t' nm') items mult agg t nm

/-- A run that returns a result visited every transitively required name:
success rules out any absent requirement. -/
theorem gatherStep_ok_no_absent (cb : List Entry)
    (r : List (String × Int) → Int → List (String × Int) → Except GErr (Int × List (String × Int)))
    (hr : ∀ its m a res, r its m a = .ok res → ¬ RequiresAbsent cb its) :
    ∀ items mult agg res, gatherStep cb r items mult agg = .ok res →
      ¬ RequiresAbsent cb items := by
  intro items
  induction items with
  | nil =>
    intro mult agg res _ hra
    cases hra with
    | here hm _ => cases hm
    | there hm _ _ _ => cases hm
  | cons p rest ih =>
    obtain ⟨n, q⟩ := p
    intro mult agg res h hra
    simp only [gatherStep] at h
    cases hfind : cb.find? (fun e => e.name == n) with
    | none =>
      rw [hfind] at h
      simp at h
    | some e =>
      rw [hfind] at h
      cases hing : e.type == "ingredient" with
      | true =>
        simp only [hing, if_true] at h
        cases hres : gatherStep cb r rest mult (bumpAgg agg e.name (q * mult)) with
        | error er => rw [hres] at h; simp at h
        | ok res2 =>
          have hnorest := ih mult (bumpAgg agg e.name (q * mult)) res2 hres
          cases hra with
          | here hm hnone =>
            rcases List.mem_cons.1 hm with heq | hm'
            · injection heq with h1 h2
              subst h1
              rw [hfind] at hnone
              cases hnone
            · exact hnorest (RequiresAbsent.here hm' hnone)
          | there hm hfind' ht' hsub =>
            rcases List.mem_cons.1 hm with heq | hm'
            · injection heq with h1 h2
              subst h1
              rw [hfind] at hfind'
              injection hfind' with he
              subst he
              rw [beq_iff_eq.1 hing] at ht'
              exact absurd ht' (by decide)
            · exact hnorest (RequiresAbsent.there hm' hfind' ht' hsub)
      | false =>
        cases hrec : e.type == "recipe" with
        | false =>
          simp only [hing, Bool.false_eq_true, if_false, hrec] at h
          simp at h
        | true =>
          simp only [hing, Bool.false_eq_true, if_false, hrec, if_true] at h
          cases hsubr : r e.requiredItems (q * mult) agg with
          | error er => rw [hsubr] at h; simp at h
          | ok subRes =>
            have hnosub := hr e.requiredItems (q * mult) agg subRes hsubr
            rw [hsubr] at h
            obtain ⟨tSub, agg1⟩ := subRes
            dsimp only at h
            cases hres : gatherStep cb r rest mult agg1 with
            | error er => rw [hres] at h; simp at h
            | ok res2 =>
              have hnorest := ih mult agg1 res2 hres
              cases hra with
              | here hm hnone =>
                rcases List.mem_cons.1 hm with heq | hm'
                · injection heq with h1 h2
                  subst h1
                  rw [hfind] at hnone
                  cases hnone
                · exact hnorest (RequiresAbsent.here hm' hnone)
              | there hm hfind' ht' hsub =>
                rcases List.mem_cons.1 hm with heq | hm'
                · injection heq with h1 h2
                  subst h1
                  rw [hfind] at hfind'
                  injection hfind' with he
                  subst he
                  exact hnosub hsub
                · exact hnorest (RequiresAbsent.there hm' hfind' ht' hsub)

theorem gatherFuel_ok_no_absent (cb : List Entry) :
    ∀ fuel items mult agg res, gatherFuel cb fuel items mult agg = .ok res →
      ¬ RequiresAbsent cb items := by
  intro fuel
  induction fuel with
  | zero => intro items mult agg res h; simp [gatherFuel] at h
  | succ f ih =>
    intro items mult agg res h
    exact gatherStep_ok_no_absent cb (gatherFuel cb f)
      (fun its m a res' h' => ih its m a res' h') items mult agg res h

/-- Refinement of one loop level against the specification sums. -/
theorem gatherStep_spec (cb : List Entry)
    (r : List (String × Int) → Int → List (String × Int) → Except GErr (Int × List (String × Int)))
    (sc : List (String × Int) → Int → Int)
    (pq : List (String × Int) → Int → String → Int)
    (hr : ∀ its m a t a', r its m a = .ok (t, a') →
        t = sc its m ∧ ∀ i, lookAgg a' i = lookAgg a i + pq its m i) :
    ∀ items mult agg t agg', gatherStep cb r items mult agg = .ok (t, agg') →
      t = specCookStep cb sc items mult ∧
      ∀ i, lookAgg agg' i = lookAgg agg i + pathQtyStep cb pq items mult i := by
  intro items
  induction items with
  | nil =>
    intro mult agg t agg' h
    simp only [gatherStep, Except.ok.injEq, Prod.mk.injEq] at h
    obtain ⟨ht, ha⟩ := h
    subst ht
    subst ha
    exact ⟨rfl, fun i => by simp [pathQtyStep]⟩
  | cons p rest ih =>
    obtain ⟨n, q⟩ := p
    intro mult agg t agg' h
    simp only [gatherStep] at h
    cases hfind : cb.find? (fun e => e.name == n) with
    | none => rw [hfind] at h; simp at h
    | some e =>
      rw [hfind] at h
      cases hing : e.type == "ingredient" with
      | true =>
        simp only [hing, if_true] at h
        cases hres : gatherStep cb r rest mult (bumpAgg agg e.name (q * mult)) with
        | error er => rw [hres] at h; simp at h
        | ok res2 =>
          obtain ⟨t2, a2⟩ := res2
          rw [hres] at h
          dsimp only at h
          simp only [Except.ok.injEq, Prod.mk.injEq] at h
          obtain ⟨ht, ha⟩ := h
          subst ht
          subst ha
          obtain ⟨hc, hq⟩ := ih mult (bumpAgg agg e.name (q * mult)) t2 a2 hres
          constructor
          · simp only [specCookStep, hfind, hing, if_true]
            rw [hc]
          · intro i
            simp only [pathQtyStep, hfind, hing, if_true]
            rw [hq i, lookAgg_bumpAgg e.name (q * mult) i agg]
            ring
      | false =>
        cases hrec : e.type == "recipe" with
        | false =>
          simp only [hing, Bool.false_eq_true, if_false, hrec] at h
          simp at h
        | true =>
          simp only [hing, Bool.false_eq_true, if_false, hrec, if_true] at h
          cases hsubr : r e.requiredItems (q * mult) agg with
          | error er => rw [hsubr] at h; simp at h
          | ok subRes =>
            obtain ⟨tSub, agg1⟩ := subRes
            rw [hsubr] at h
            dsimp only at h
            cases hres : gatherStep cb r rest mult agg1 with
            | error er => rw [hres] at h; simp at h
            | ok res2 =>
              obtain ⟨t2, a2⟩ := res2
              rw [hres] at h
              dsimp only at h
              simp only [Except.ok.injEq, Prod.mk.injEq] at h
              obtain ⟨ht, ha⟩ := h
              subst ht
              subst ha
              obtain ⟨hcSub, hqSub⟩ := hr e.requiredItems (q * mult) agg tSub agg1 hsubr
              obtain ⟨hcRest, hqRest⟩ := ih mult agg1 t2 a2 hres
              constructor
              · simp only [specCookStep, hfind, hing, Bool.false_eq_true, if_false, hrec, if_true]
                rw [hcSub, hcRest]
              · intro i
                simp only [pathQtyStep, hfind, hing, Bool.false_eq_true, if_false, hrec, if_true]
                rw [hqRest i, hqSub i]
                ring

/-- `gatherRecipeData` computes the specification sums: on success the
returned cook time is the spec cook time and each aggregated quantity grew
by exactly the path-sum quantity of that ingredient. -/
theorem gatherFuel_spec (cb : List Entry) :
    ∀ fuel items mult agg t agg', gatherFuel cb fuel items mult agg = .ok (t, agg') →
      t = specCookFuel cb fuel items mult ∧
      ∀ i, lookAgg agg' i = lookAgg agg i + pathQtyFuel cb fuel items mult i := by
  intro fuel
  induction fuel with
  | zero => intro items mult agg t agg' h; simp [gatherFuel] at h
  | succ f ih =>
    intro items mult agg t agg' h
    exact gatherStep_spec cb (gatherFuel cb f) (specCookFuel cb f) (pathQtyFuel cb f)
      (fun its m a t' a' h' => ih its m a t' a' h') items mult agg t agg' h

/-- A successful insertion appends exactly one entry, with a recognized
type tag and a name that was not yet stored. -/
theorem postEntry_success_shape (cb : List Entry) (body : JSVal) (cb' : List Entry)
    (h : postEntry cb body = (.success, cb')) :
    ∃ e : Entry, cb' = cb ++ [e] ∧ (e.type = "ingredient" ∨ e.type = "recipe") ∧
      ∀ e0 ∈ cb, e0.name ≠ e.name := by
  unfold postEntry at h
  split at h
  · simp at h
  · split at h
    · rename_i s heqName
      split at h
      · simp at h
      · split at h
        · simp at h
        · rename_i hsne hany
          split at h
          · split at h
            · rename_i c heqCT
              split at h
              · simp at h
              · simp only [Prod.mk.injEq] at h
                obtain ⟨-, rfl⟩ := h
                refine ⟨⟨s, "ingredient", c, []⟩, rfl, Or.inl rfl, ?_⟩
                intro e0 he0 heq
                apply hany
                exact List.any_eq_true.2 ⟨e0, he0, by simp [heq]⟩
            · simp at h
          · split at h
            · rename_i items heqRI
              split at h
              · simp at h
              · split at h
                · simp at h
                · split at h
                  · simp only [Prod.mk.injEq] at h
                    obtain ⟨-, rfl⟩ := h
                    refine ⟨⟨s, "recipe", 0, items.map extractItem⟩, rfl, Or.inr rfl, ?_⟩
                    intro e0 he0 heq
                    apply hany
                    exact List.any_eq_true.2 ⟨e0, he0, by simp [heq]⟩
                  · simp at h
            · simp at h
    · simp at h

/-- A failing insertion leaves the cookbook unchanged. -/
theorem postEntry_fail_state (cb : List Entry) (body : JSVal) (o : EntryOutcome)
    (cb' : List Entry) (h : postEntry cb body = (o, cb')) (ho : o ≠ .success) :
    cb' = cb := by
  unfold postEntry at h
  repeat' split at h
  all_goals
    first
    | (injection h with h1 h2; exact h2.symm)
    | (injection h with h1 h2; exact absurd h1.symm ho)

/-- Inserting a candidate whose `name` field equals the name of an entity
already stored is rejected with HTTP 400 and the cookbook is unchanged. -/
theorem postEntry_dup (cb : List Entry) (body : JSVal) (e : Entry)
    (he : e ∈ cb) (hn : getField body "name" = JSVal.str e.name) :
    postEntry cb body = (.badRequest, cb) := by
  unfold postEntry
  split
  · rfl
  · rw [hn]
    dsimp only
    split
    · rfl
    · have hany : cb.any (fun x => x.name == e.name) = true :=
        List.any_eq_true.2 ⟨e, he, by simp⟩
      simp [hany]

/-- Invariant of the reachable cookbook states: names are pairwise
distinct and every stored type tag is recognized. -/
theorem reachable_nodup_wellTyped :
    ∀ cb, Reachable cb → (cb.map Entry.name).Nodup ∧ WellTyped cb := by
  intro cb h
  induction h with
  | nil => exact ⟨List.nodup_nil, fun e he => absurd he (List.not_mem_nil e)⟩
  | step hre hpost ih =>
    obtain ⟨e, rfl, htype, hfresh⟩ := postEntry_success_shape _ _ _ hpost
    constructor
    · rw [List.map_append, List.nodup_append]
      refine ⟨ih.1, List.nodup_singleton _, ?_⟩
      intro a ha hmem
      simp only [List.map_cons, List.map_nil, List.mem_singleton] at hmem
      subst hmem
      obtain ⟨e0, he0, hname⟩ := List.mem_map.1 ha
      exact hfresh e0 he0 hname
    · intro x hx
      rcases List.mem_append.1 hx with hx | hx
      · exact ih.2 x hx
      · rcases List.mem_singleton.1 hx with rfl
        exact htype

theorem find?_append_left_none {α : Type} (p : α → Bool) (l1 l2 : List α)
    (h : ∀ x ∈ l1, ¬ p x) : (l1 ++ l2).find? p = l2.find? p := by
  rw [List.find?_append]
  simp [List.find?_eq_none.2 h]

theorem dropWhile_head_false {α : Type} (p : α → Bool) :
    ∀ l : List α, ∀ c rest, l.dropWhile p = c :: rest → p c = false := by
  intro l
  induction l with
  | nil => intro c rest h; simp [List.dropWhile] at h
  | cons a l2 ih =>
    intro c rest h
    rw [List.dropWhile_cons] at h
    by_cases ha : p a
    · rw [if_pos ha] at h
      exact ih c rest h
    · rw [if_neg ha] at h
      injection h with h1 h2
      subst h1
      simpa using ha

theorem jsTrim_eq_nil_all_ws (l : List Char) (h : jsTrim l = []) :
    ∀ c ∈ l, jsWs c = true := by
  unfold jsTrim at h
  rw [List.reverse_eq_nil_iff, List.dropWhile_eq_nil_iff] at h
  have h2 : ∀ x ∈ l.dropWhile jsWs, jsWs x = true :=
    fun x hx => h x (List.mem_reverse.2 hx)
  cases hd : l.dropWhile jsWs with
  | nil => exact List.dropWhile_eq_nil_iff.1 hd
  | cons c rest =>
    have hc : jsWs c = false := dropWhile_head_false jsWs l c rest hd
    have hcw : jsWs c = true := h2 c (hd ▸ List.mem_cons_self c rest)
    rw [hc] at hcw
    cases hcw

theorem normCore_of_trim_nil (l : List Char) (h : jsTrim l = []) :
    normCore l = [] := by
  have hall := jsTrim_eq_nil_all_ws l h
  have hdash : dashToSpace l = l := by
    unfold dashToSpace
    have hcongr : ∀ c ∈ l, (if c == '-' || c == '_' then ' ' else c) = c := by
      intro c hc
      have hw := hall c hc
      by_cases h1 : c = '-'
      · subst h1; exact absurd hw (by decide)
      · by_cases h2 : c = '_'
        · subst h2; exact absurd hw (by decide)
        · simp [h1, h2]
    rw [List.map_congr_left hcongr]
    exact l.map_id
  have hkeep : keepLettersWs l = l := by
    unfold keepLettersWs
    apply List.filter_eq_self.2
    intro c hc
    simp [hall c hc]
  unfold normCore
  rw [hdash, hkeep, h]
  rfl

theorem splitSp_ne_nil : ∀ l : List Char, splitSp l ≠ [] := by
  intro l
  induction l with
  | nil => simp [splitSp]
  | cons c rest ih =>
    by_cases hc : c = ' '
    · simp [splitSp, hc]
    · simp only [splitSp, if_neg hc]
      cases hs : splitSp rest with
      | nil => simp
      | cons w ws => simp

theorem joinSp_splitSp : ∀ l : List Char, joinSp (splitSp l) = l := by
  intro l
  induction l with
  | nil => rfl
  | cons c rest ih =>
    by_cases hc : c = ' '
    · subst hc
      simp only [splitSp, if_pos rfl]
      cases hs : splitSp rest with
      | nil => exact absurd hs (splitSp_ne_nil rest)
      | cons w ws =>
        rw [hs] at ih
        simp [joinSp, ih]
    · simp only [splitSp, if_neg hc]
      cases hs : splitSp rest with
      | nil => exact absurd hs (splitSp_ne_nil rest)
      | cons w ws =>
        rw [hs] at ih
        cases ws with
        | nil =>
          simp only [joinSp] at ih ⊢
          rw [ih]
        | cons w2 ws2 =>
          simp only [joinSp] at ih ⊢
          rw [List.cons_append, ih]

theorem capWord_length : ∀ w : List Char, (capWord w).length = w.length := by
  intro w
  cases w <;> simp [capWord]

theorem joinSp_map_capWord_length : ∀ ws : List (List Char),
    (joinSp (ws.map capWord)).length = (joinSp ws).length := by
  intro ws
  induction ws with
  | nil => rfl
  | cons w ws2 ih =>
    cases ws2 with
    | nil => simp [joinSp, capWord_length]
    | cons w2 ws3 =>
      have hj1 : joinSp (capWord w :: capWord w2 :: List.map capWord ws3)
          = capWord w ++ ' ' :: joinSp (capWord w2 :: List.map capWord ws3) := rfl
      have hj2 : joinSp (w :: w2 :: ws3) = w ++ ' ' :: joinSp (w2 :: ws3) := rfl
      simp only [List.map_cons] at ih ⊢
      rw [hj1, hj2]
      simp only [List.length_append, List.length_cons, capWord_length]
      omega

/-- `parse_handwriting` returns null exactly when the stripped, collapsed
core of the input is empty. -/
theorem parse_handwriting_none_iff (s : String) :
    parse_handwriting s = none ↔ normCore s.toList = [] := by
  unfold parse_handwriting
  by_cases h : jsTrim s.toList = []
  · rw [if_pos (show (jsTrim s.toList == []) = true from beq_iff_eq.2 h)]
    constructor
    · intro _
      exact normCore_of_trim_nil _ h
    · intro _
      rfl
  · rw [if_neg (show ¬ (jsTrim s.toList == []) = true from fun hc => h (beq_iff_eq.1 hc))]
    by_cases h2 : normCore s.toList = []
    · rw [if_pos (show (normCore s.toList == []) = true from beq_iff_eq.2 h2)]
      constructor
      · intro _
        exact h2
      · intro _
        rfl
    · rw [if_neg (show ¬ (normCore s.toList == []) = true from fun hc => h2 (beq_iff_eq.1 hc))]
      have hlen : (joinSp ((splitSp (normCore s.toList)).map capWord)).length
          = (normCore s.toList).length := by
        rw [joinSp_map_capWord_length, joinSp_splitSp]
      have hpos : 0 < (normCore s.toList).length := List.length_pos.2 h2
      rw [if_pos (show (joinSp ((splitSp (normCore s.toList)).map capWord)).length > 0 from hlen ▸ hpos)]
      constructor
      · intro hc
        cases hc
      · intro hc
        exact absurd hc h2

/-- Step 1 of the resolver contract: absent name or non-recipe variant. -/
theorem getSummaryE_notFound (cb : List Entry) (fuel : Nat) (name : String)
    (hne : name ≠ "")
    (h : cb.find? (fun e => e.name == name) = none ∨
      ∃ e, cb.find? (fun e => e.name == name) = some e ∧ e.type ≠ "recipe") :
    getSummaryE cb fuel name = .error .notFoundOrNotRecipe := by
  unfold getSummaryE
  rw [if_neg (fun hx => hne (beq_iff_eq.1 hx))]
  rcases h with h | ⟨e, hfind, htype⟩
  · rw [h]
  · rw [hfind]
    dsimp only
    rw [if_neg (fun hx => htype (beq_iff_eq.1 hx))]

/-- When a transitive requirement is absent and the registry is well typed
and acyclic, the resolution error is a missing-requirement error. -/
theorem getSummaryE_missing (cb : List Entry) (rank : String → Nat) (name : String)
    (e : Entry) (fuel : Nat) (hacy : AcyclicRank cb rank) (hw : WellTyped cb)
    (hne : name ≠ "") (hfind : cb.find? (fun x => x.name == name) = some e)
    (htype : e.type = "recipe") (hra : RequiresAbsent cb e.requiredItems)
    (hfuel : maxRankItems rank e.requiredItems + 1 ≤ fuel) :
    ∃ m, getSummaryE cb fuel name = .error (.gather (.missing m)) := by
  have hnotok : ∀ res, gatherFuel cb fuel e.requiredItems 1 [] ≠ .ok res :=
    fun res hok => gatherFuel_ok_no_absent cb fuel e.requiredItems 1 [] res hok hra
  have hnofuel : gatherFuel cb fuel e.requiredItems 1 [] ≠ .error .fuelOut :=
    gatherFuel_ne_fuelOut cb rank hacy (maxRankItems rank e.requiredItems) fuel
      e.requiredItems 1 [] hfuel
      (fun p hp e' _ _ => rank_lt_maxRankItems rank e.requiredItems p hp)
  have hnoinv : ∀ t nm, gatherFuel cb fuel e.requiredItems 1 [] ≠ .error (.invalidType t nm) :=
    fun t nm => gatherFuel_ne_invalid cb hw fuel e.requiredItems 1 [] t nm
  unfold getSummaryE
  rw [if_neg (fun hx => hne (beq_iff_eq.1 hx)), hfind]
  dsimp only
  rw [if_pos (beq_iff_eq.2 htype)]
  cases hg : gatherFuel cb fuel e.requiredItems 1 [] with
  | ok res => exact absurd hg (hnotok res)
  | error g =>
    cases g with
    | missing m => exact ⟨m, rfl⟩
    | invalidType t nm => exact absurd hg (hnoinv t nm)
    | fuelOut => exact absurd hg hnofuel

theorem wellTyped_cb9 : WellTyped cb9 := by
  intro e he
  have he2 : e = ⟨"Pie", "recipe", 0, [("Spice", 1)]⟩ := by simpa [cb9] using he
  subst he2
  right
  rfl

theorem requiresAbsent_cb9 : RequiresAbsent cb9 [("Spice", 1)] :=
  RequiresAbsent.here (List.mem_singleton.2 rfl) rfl

theorem acyclicRank_cb9 : AcyclicRank cb9 (fun _ => 0) := by
  intro n e hfind htype p hp e' hfind' ht'
  have he : e ∈ cb9 := List.mem_of_find?_eq_some hfind
  have he2 : e = ⟨"Pie", "recipe", 0, [("Spice", 1)]⟩ := by
    simpa [cb9] using he
  subst he2
  have hp2 : p = ("Spice", 1) := List.mem_singleton.1 hp
  subst hp2
  have hnone : cb9.find? (fun x => x.name == ("Spice", 1).1) = none := rfl
  rw [hnone] at hfind'
  cases hfind'

theorem acyclicRank_breadCb : AcyclicRank breadCb breadRank := by
  intro n e hfind htype p hp e' hfind' ht'
  have hpred := List.find?_some hfind
  simp only [beq_iff_eq] at hpred
  subst hpred
  have he : e ∈ breadCb := List.mem_of_find?_eq_some hfind
  have he2 : e = ⟨"Flour", "ingredient", 2, []⟩ ∨ e = ⟨"Dough", "recipe", 0, [("Flour", 2)]⟩ ∨
      e = ⟨"Bread", "recipe", 0, [("Dough", 1), ("Flour", 1)]⟩ := by
    simpa [breadCb] using he
  rcases he2 with rfl | rfl | rfl
  · exact absurd htype (by decide)
  · have hp2 : p = ("Flour", 2) := List.mem_singleton.1 hp
    subst hp2
    have hf : breadCb.find? (fun x => x.name == ("Flour", 2).1)
        = some ⟨"Flour", "ingredient", 2, []⟩ := rfl
    rw [hf] at hfind'
    injection hfind' with he'
    subst he'
    exact absurd ht' (by decide)
  · rcases List.mem_cons.1 hp with rfl | hp2
    · decide
    · have hp3 : p = ("Flour", 1) := List.mem_singleton.1 hp2
      subst hp3
      have hf : breadCb.find? (fun x => x.name == ("Flour", 1).1)
          = some ⟨"Flour", "ingredient", 2, []⟩ := rfl
      rw [hf] at hfind'
      injection hfind' with he'
      subst he'
      exact absurd ht' (by decide)

/-- C1: on every successful resolution the returned total cook time equals
the specification cook-time sum, and every aggregated ingredient quantity
grew by the sum, over all requirement-graph paths reaching that base
ingredient, of the line quantity multiplied by the accumulated multiplier
along the path; in particular, with ingredient Flour of cook time 2,
recipe Dough requiring 2 Flour and recipe Bread requiring 1 Dough and
1 Flour, the summary of Bread has cook time 6 and ingredients Flour with
total quantity 3. -/
theorem c1_summary_path_sums :
    (∀ cb fuel items mult agg t agg',
      gatherFuel cb fuel items mult agg = .ok (t, agg') →
      t = specCookFuel cb fuel items mult ∧
      ∀ i, lookAgg agg' i = lookAgg agg i + pathQtyFuel cb fuel items mult i) ∧
    getSummaryE breadCb 9 "Bread" = .ok ("Bread", 6, [("Flour", 3)]) :=
  ⟨fun cb fuel items mult agg t agg' h => gatherFuel_spec cb fuel items mult agg t agg' h, rfl⟩

/-- Witness for C1 at the Bread example: the cook time 6 is the spec sum and
the aggregated Flour quantity 3 is the path-sum quantity of Flour. -/
theorem c1_witness :
    (6 : Int) = specCookFuel breadCb 9 [("Dough", 1), ("Flour", 1)] 1 ∧
    lookAgg [("Flour", 3)] "Flour"
      = lookAgg [] "Flour" + pathQtyFuel breadCb 9 [("Dough", 1), ("Flour", 1)] 1 "Flour" := by
  have h := c1_summary_path_sums.1 breadCb 9 [("Dough", 1), ("Flour", 1)] 1 [] 6 [("Flour", 3)] rfl
  exact ⟨h.1, h.2 "Flour"⟩

/-- C2: the resolver fails with the not-found-or-not-recipe error exactly
when the queried name is absent or resolves to a non-recipe; a successful
expansion rules out any transitively absent requirement (so no partial
summary coexists with a missing requirement); and on a well-typed acyclic
registry whose queried recipe transitively requires an absent name, the
whole resolution fails with a missing-requirement error. -/
theorem c2_summary_error_taxonomy :
    (∀ cb fuel name, name ≠ "" →
      (cb.find? (fun e => e.name == name) = none ∨
        (∃ e, cb.find? (fun e => e.name == name) = some e ∧ e.type ≠ "recipe")) →
      getSummaryE cb fuel name = .error .notFoundOrNotRecipe) ∧
    (∀ cb fuel items mult agg t agg',
      gatherFuel cb fuel items mult agg = .ok (t, agg') → ¬ RequiresAbsent cb items) ∧
    (∀ cb rank name e fuel, AcyclicRank cb rank → WellTyped cb → name ≠ "" →
      cb.find? (fun x => x.name == name) = some e → e.type = "recipe" →
      RequiresAbsent cb e.requiredItems →
      maxRankItems rank e.requiredItems + 1 ≤ fuel →
      ∃ m, getSummaryE cb fuel name = .error (.gather (.missing m))) := by
  refine ⟨?_, ?_, ?_⟩
  · intro cb fuel name hne h
    exact getSummaryE_notFound cb fuel name hne h
  · intro cb fuel items mult agg t agg' h
    exact gatherFuel_ok_no_absent cb fuel items mult agg (t, agg') h
  · intro cb rank name e fuel hacy hw hne hfind htype hra hfuel
    exact getSummaryE_missing cb rank name e fuel hacy hw hne hfind htype hra hfuel

/-- Witness for C2 on the one-recipe cookbook whose requirement is absent:
the resolution fails with the missing-requirement error naming Spice. -/
theorem c2_witness :
    getSummaryE cb9 2 "Pie" = .error (.gather (.missing "Spice")) := by
  obtain ⟨m, hm⟩ := c2_summary_error_taxonomy.2.2 cb9 (fun _ => 0) "Pie"
    ⟨"Pie", "recipe", 0, [("Spice", 1)]⟩ 2 acyclicRank_cb9 wellTyped_cb9 (by decide)
    rfl rfl requiresAbsent_cb9 (by decide)
  have hms : m = "Spice" := by
    have h0 : Except.error (SummaryErr.gather (GErr.missing m))
        = getSummaryE cb9 2 "Pie" := hm.symm
    have h1 : getSummaryE cb9 2 "Pie"
        = Except.error (SummaryErr.gather (GErr.missing "Spice")) := rfl
    rw [h1] at h0
    injection h0 with h2
    injection h2 with h3
    injection h3
  rw [hms] at hm
  exact hm

/-- C3: evaluation of the code at the failing input. A recipe insertion
whose requiredItems contains null makes the handler throw a TypeError at
the duplicate-name check (reading .name off null at line 122), which the
framework reports as HTTP 500, instead of the 400 ValidationError the
claim requires; no entity is added. -/
theorem c3_null_item_throws :
    postEntry [] (JSVal.obj [("type", .str "recipe"), ("name", .str "A"),
      ("requiredItems", .arr [.nul])]) = (.thrown, []) := rfl

/-- C4: in every reachable registry state the stored names are pairwise
distinct, and any insertion whose name field equals the name of a stored
entity of either variant is rejected with HTTP 400, leaving the registry
(and hence the first entity stored under that name) unchanged. -/
theorem c4_registry_unique_names :
    ∀ cb, Reachable cb →
      (cb.map Entry.name).Nodup ∧
      ∀ body e, e ∈ cb → getField body "name" = JSVal.str e.name →
        postEntry cb body = (.badRequest, cb) := by
  intro cb h
  exact ⟨(reachable_nodup_wellTyped cb h).1,
    fun body e he hn => postEntry_dup cb body e he hn⟩

/-- Witness for C4: after storing the Flour ingredient, inserting a recipe
named Flour is rejected and the registry keeps the original entry. -/
theorem c4_witness :
    postEntry [⟨"Flour", "ingredient", 2, []⟩]
      (JSVal.obj [("type", JSVal.str "recipe"), ("name", JSVal.str "Flour"),
        ("requiredItems", JSVal.arr [])])
      = (.badRequest, [⟨"Flour", "ingredient", 2, []⟩]) := by
  have hreach : Reachable [⟨"Flour", "ingredient", 2, []⟩] :=
    @Reachable.step [] [⟨"Flour", "ingredient", 2, []⟩]
      (JSVal.obj [("type", JSVal.str "ingredient"), ("name", JSVal.str "Flour"),
        ("cookTime", JSVal.num 2)]) Reachable.nil rfl
  exact (c4_registry_unique_names _ hreach).2 _ ⟨"Flour", "ingredient", 2, []⟩
    (List.mem_singleton.2 rfl) rfl

/-- C6: on a requirement graph with an acyclicity rank witness, the
expansion of every stored recipe at every multiplier stabilizes: there is
one result, distinct from the depth-exhaustion artifact, obtained at every
sufficiently large recursion depth, so the function of the acyclic graph
is total and no artificial recursion cap is involved. -/
theorem c6_gather_total_on_acyclic :
    ∀ cb rank, AcyclicRank cb rank → ∀ e, e ∈ cb → e.type = "recipe" →
      ∀ mult agg, ∃ r, r ≠ Except.error GErr.fuelOut ∧
        ∀ fuel, maxRankItems rank e.requiredItems + 1 ≤ fuel →
          gatherFuel cb fuel e.requiredItems mult agg = r := by
  intro cb rank hacy e _ _ mult agg
  have hbound : ∀ p ∈ e.requiredItems, ∀ e',
      cb.find? (fun x => x.name == p.1) = some e' → e'.type = "recipe" →
      rank p.1 < maxRankItems rank e.requiredItems :=
    fun p hp e' _ _ => rank_lt_maxRankItems rank e.requiredItems p hp
  have hne := gatherFuel_ne_fuelOut cb rank hacy (maxRankItems rank e.requiredItems)
    (maxRankItems rank e.requiredItems + 1) e.requiredItems mult agg le_rfl hbound
  refine ⟨gatherFuel cb (maxRankItems rank e.requiredItems + 1) e.requiredItems mult agg,
    hne, ?_⟩
  intro fuel hle
  exact gatherFuel_mono cb (maxRankItems rank e.requiredItems + 1) fuel
    e.requiredItems mult agg hle hne

/-- Witness for C6: the Bread expansion does not exhaust depth 9. -/
theorem c6_witness :
    gatherFuel breadCb 9 [("Dough", 1), ("Flour", 1)] 1 [] ≠ Except.error GErr.fuelOut := by
  obtain ⟨r, hr, hstable⟩ := c6_gather_total_on_acyclic breadCb breadRank acyclicRank_breadCb
    ⟨"Bread", "recipe", 0, [("Dough", 1), ("Flour", 1)]⟩ (by simp [breadCb]) rfl 1 []
  have h9 := hstable 9 (by decide)
  intro hEq
  exact hr (h9.symm.trans hEq)

/-- C7: with the registry state threaded explicitly, a summary request
returns the state unchanged, and a repeated request against the returned
state produces the identical response. -/
theorem c7_summary_idempotent_readonly :
    ∀ cb fuel name,
      (summaryStep cb fuel name).2 = cb ∧
      (summaryStep (summaryStep cb fuel name).2 fuel name).1
        = (summaryStep cb fuel name).1 :=
  fun _ _ _ => ⟨rfl, rfl⟩

/-- C8: every registry state reachable through validated insertion stores
only the two recognized type tags, and consequently no summary on such a
state can produce the unknown-variant error. -/
theorem c8_no_invalid_type_reachable :
    ∀ cb, Reachable cb →
      WellTyped cb ∧
      ∀ fuel name t nm, getSummaryE cb fuel name ≠ .error (.gather (.invalidType t nm)) := by
  intro cb h
  have hw := (reachable_nodup_wellTyped cb h).2
  refine ⟨hw, ?_⟩
  intro fuel name t nm hc
  unfold getSummaryE at hc
  split at hc
  · simp at hc
  · split at hc
    · simp at hc
    · rename_i e heqFind
      split at hc
      · split at hc
        · simp at hc
        · rename_i g heqG
          simp only [Except.error.injEq, SummaryErr.gather.injEq] at hc
          subst hc
          exact gatherFuel_ne_invalid cb hw fuel e.requiredItems 1 [] t nm heqG
      · simp at hc

/-- Witness for C8 at the empty reachable registry. -/
theorem c8_witness :
    getSummaryE [] 3 "X" ≠ .error (.gather (.invalidType "t" "n")) :=
  (c8_no_invalid_type_reachable [] Reachable.nil).2 3 "X" "t" "n"

/-- Counterexample to C9: two different taxonomy cases, an unknown recipe
name versus a missing transitive requirement, produce the identical
observable response, a bare HTTP 400 carrying no case information. -/
theorem c9_indistinguishable_responses :
    summaryEndpoint cb9 9 "Nope" = SummaryHttp.badRequest ∧
    summaryEndpoint cb9 9 "Pie" = SummaryHttp.badRequest ∧
    summaryEndpoint cb9 9 "Nope" = summaryEndpoint cb9 9 "Pie" ∧
    getSummaryE cb9 9 "Nope" = .error .notFoundOrNotRecipe ∧
    getSummaryE cb9 9 "Pie" = .error (.gather (.missing "Spice")) :=
  ⟨rfl, rfl, rfl, rfl, rfl⟩

/-- C9 (amended): no failure is silently swallowed or downgraded to a
success or default value — a failing summary is observed as the 400
rejection and never as a success body, and a failing insertion leaves the
registry unchanged and is reported either as the 400 rejection or as an
escaping thrown error, never as success; however the summary rejection is
the same bare 400 for every taxonomy case, so the rejected result carries
no case information. -/
theorem c9_failures_rejected_uniformly :
    (∀ cb fuel name, summaryEndpoint cb fuel name = SummaryHttp.badRequest ↔
      ∃ er, getSummaryE cb fuel name = .error er) ∧
    (∀ cb fuel name r, summaryEndpoint cb fuel name = SummaryHttp.jsonOk r ↔
      getSummaryE cb fuel name = .ok r) ∧
    (∀ cb body o cb', postEntry cb body = (o, cb') → o ≠ .success →
      cb' = cb ∧ (o = .badRequest ∨ o = .thrown)) := by
  refine ⟨?_, ?_, ?_⟩
  · intro cb fuel name
    unfold summaryEndpoint
    cases hg : getSummaryE cb fuel name with
    | ok r => simp
    | error er => simp
  · intro cb fuel name r
    unfold summaryEndpoint
    cases hg : getSummaryE cb fuel name with
    | ok r2 => simp
    | error er => simp
  · intro cb body o cb' h ho
    refine ⟨postEntry_fail_state cb body o cb' h ho, ?_⟩
    cases o with
    | success => exact absurd rfl ho
    | badRequest => exact Or.inl rfl
    | thrown => exact Or.inr rfl

/-- Witness for the amended C9: the null-item insertion failure leaves the
empty registry empty and is the escaping thrown error, and the
missing-requirement summary failure is observed as the bare 400. -/
theorem c9_witness :
    (([] : List Entry) = [] ∧
      (EntryOutcome.thrown = .badRequest ∨ EntryOutcome.thrown = .thrown)) ∧
    summaryEndpoint cb9 9 "Pie" = SummaryHttp.badRequest := by
  constructor
  · exact c9_failures_rejected_uniformly.2.2 []
      (JSVal.obj [("type", JSVal.str "recipe"), ("name", JSVal.str "A"),
        ("requiredItems", JSVal.arr [JSVal.nul])])
      EntryOutcome.thrown [] rfl (by decide)
  · exact (c9_failures_rejected_uniformly.1 cb9 9 "Pie").2
      ⟨SummaryErr.gather (GErr.missing "Spice"), rfl⟩

/-- C10: a recipe with an empty requiredItems array and a fresh non-empty
name is accepted, and its summary succeeds with cook time 0 and an empty
ingredients list. -/
theorem c10_empty_recipe :
    ∀ cb name fuel, name ≠ "" → (∀ e ∈ cb, e.name ≠ name) →
      postEntry cb (JSVal.obj [("type", JSVal.str "recipe"), ("name", JSVal.str name),
          ("requiredItems", JSVal.arr [])])
        = (.success, cb ++ [⟨name, "recipe", 0, []⟩]) ∧
      getSummaryE (cb ++ [⟨name, "recipe", 0, []⟩]) (fuel + 1) name = .ok (name, 0, []) ∧
      summaryEndpoint (cb ++ [⟨name, "recipe", 0, []⟩]) (fuel + 1) name
        = .jsonOk (name, 0, []) := by
  intro cb name fuel hne hfresh
  have h3 : (name == "") = false := beq_eq_false_iff_ne.2 hne
  have h4 : cb.any (fun e => e.name == name) = false :=
    List.any_eq_false.2 (fun e he hb => hfresh e he (beq_iff_eq.1 hb))
  have hfind : (cb ++ [(⟨name, "recipe", 0, []⟩ : Entry)]).find? (fun e => e.name == name)
      = some ⟨name, "recipe", 0, []⟩ := by
    rw [find?_append_left_none _ _ _ (fun e he hb => hfresh e he (beq_iff_eq.1 hb))]
    simp [List.find?]
  have hsum : getSummaryE (cb ++ [⟨name, "recipe", 0, []⟩]) (fuel + 1) name
      = .ok (name, 0, []) := by
    unfold getSummaryE
    rw [if_neg (fun hx => hne (beq_iff_eq.1 hx)), hfind]
    rfl
  refine ⟨?_, hsum, ?_⟩
  · show (if name == "" then ((EntryOutcome.badRequest, cb) : EntryOutcome × List Entry)
        else if cb.any (fun e => e.name == name) then (EntryOutcome.badRequest, cb)
        else (EntryOutcome.success, cb ++ [⟨name, "recipe", 0, []⟩]))
      = (EntryOutcome.success, cb ++ [⟨name, "recipe", 0, []⟩])
    rw [h3, h4]
    rfl
  · unfold summaryEndpoint
    rw [hsum]

/-- Witness for C10 at the empty registry and the recipe named Cup. -/
theorem c10_witness :
    postEntry [] (JSVal.obj [("type", JSVal.str "recipe"), ("name", JSVal.str "Cup"),
        ("requiredItems", JSVal.arr [])])
      = (.success, [⟨"Cup", "recipe", 0, []⟩]) ∧
    getSummaryE [⟨"Cup", "recipe", 0, []⟩] 1 "Cup" = .ok ("Cup", 0, []) ∧
    summaryEndpoint [⟨"Cup", "recipe", 0, []⟩] 1 "Cup" = .jsonOk ("Cup", 0, []) := by
  have h := c10_empty_recipe [] "Cup" 0 (by decide) (fun e he => absurd he (List.not_mem_nil e))
  simpa using h

/-- C5: the normalization routine is a pure function that returns null
exactly when the stripped and collapsed core of the input is empty, and it
meets the four documented examples. -/
theorem c5_parse_handwriting_contract :
    (∀ s : String, parse_handwriting s = none ↔ normCore s.toList = []) ∧
    parse_handwriting "-burger-_bun" = some "Burger Bun" ∧
    parse_handwriting "   " = none ∧
    parse_handwriting "!!!" = none ∧
    parse_handwriting "hElLo  world" = some "Hello World" :=
  ⟨parse_handwriting_none_iff, rfl, rfl, rfl, rfl⟩
